import Mathlib

/-!
Verification of the hay crate: a generic LIFO stack wrapping a growable
vector (`src/lib.rs`).  The backing `Vec<T>` is modelled as a Lean `List`
kept in push order: `Vec::push` appends at the end and `Vec::pop` removes
the last element, so the top of the stack is the last list element.
Mutation of `&mut self` is modelled by explicit state passing: a Rust
method returning `R` becomes a Lean function returning `R × Stack α`
(or just `Stack α` when the method returns unit).
-/

universe u

/-- Embedding of `pub struct Stack<T> { vec: Vec<T> }`.  The derived
structural equality matches the derived `PartialEq`/`Eq`, which compare
the backing vectors elementwise. -/
structure Stack (α : Type u) where
  vec : List α
deriving Repr, DecidableEq

variable {α : Type u}

/-- Embedding of `Stack::new`: constructs a new, empty stack. -/
def Stack.new : Stack α :=
  ⟨[]⟩

/-- Embedding of `Stack::push`: `self.vec.push(value)` appends `value` at
the end of the backing vector, making it the new top. -/
def Stack.push (s : Stack α) (value : α) : Stack α :=
  ⟨s.vec ++ [value]⟩

/-- Embedding of `Stack::pop`: `self.vec.pop()` removes and returns the
last element of the backing vector, or returns `none` when it is empty. -/
def Stack.pop (s : Stack α) : Option α × Stack α :=
  match s.vec.getLast? with
  | none => (none, s)
  | some v => (some v, ⟨s.vec.dropLast⟩)

/-- Embedding of `Stack::top`: `self.vec.last()` reads the last element
without removing it; the receiver is borrowed immutably. -/
def Stack.top (s : Stack α) : Option α :=
  s.vec.getLast?

/-- Embedding of `Stack::top_mut`: `self.vec.last_mut()`; the value read
through the returned reference is the last element. -/
def Stack.top_mut (s : Stack α) : Option α :=
  s.vec.getLast?

/-- Writing through the reference returned by `Stack::top_mut`: replaces
the top element by `f` of itself, a no-op when the stack is empty. -/
def Stack.modifyTop (f : α → α) (s : Stack α) : Stack α :=
  match s.vec.getLast? with
  | none => s
  | some v => ⟨s.vec.dropLast ++ [f v]⟩

/-- Embedding of `Stack::clear`: `self.vec.clear()` removes all elements
(capacity, a non-observable performance hint, is not modelled). -/
def Stack.clear (s : Stack α) : Stack α :=
  ⟨[]⟩

/-- Embedding of `Stack::len`: `self.vec.len()`. -/
def Stack.len (s : Stack α) : Nat :=
  s.vec.length

/-- Embedding of `impl Deref for Stack<T>`: the read-only slice view
`&self.vec`, front-to-back. -/
def Stack.derefSlice (s : Stack α) : List α :=
  s.vec

/-- Embedding of `impl Extend<T> for Stack<T>`:
`for value in iter { self.push(value) }`. -/
def Stack.extend (s : Stack α) (iter : List α) : Stack α :=
  iter.foldl Stack.push s

/-- Embedding of `impl Extend<&T> for Stack<T>` for `T: Copy`:
`for value in iter { self.push(*value) }`; copying a `Copy` value yields
the value itself in the embedding. -/
def Stack.extendCopy (s : Stack α) (iter : List α) : Stack α :=
  iter.foldl (fun t value => t.push value) s

/-- Pushing a list of values one call of `push` at a time, first element
of the list first. -/
def Stack.pushAll (s : Stack α) (l : List α) : Stack α :=
  l.foldl Stack.push s

/-- Popping n times in sequence, collecting the n results in call order. -/
def Stack.popN : Nat → Stack α → List (Option α) × Stack α
  | 0, s => ([], s)
  | n + 1, s =>
    let p := s.pop
    let q := Stack.popN n p.2
    (p.1 :: q.1, q.2)

/-- One observed call of `Stack::top`: the result paired with the stack
the caller is left with (`top` takes `&self`). -/
def Stack.topOp (s : Stack α) : Option α × Stack α :=
  (s.top, s)

/-- Calling `top` n times in a row, keeping the stack left behind. -/
def Stack.topN : Nat → Stack α → Stack α
  | 0, s => s
  | n + 1, s => Stack.topN n (s.topOp).2

lemma Stack.pushAll_vec (s : Stack α) (l : List α) :
    (s.pushAll l).vec = s.vec ++ l := by
  induction l generalizing s with
  | nil => simp [Stack.pushAll]
  | cons a t ih =>
    show ((s.push a).pushAll t).vec = s.vec ++ (a :: t)
    rw [ih]
    simp [Stack.push]

lemma Stack.pop_concat (v : List α) (a : α) :
    Stack.pop ⟨v ++ [a]⟩ = (some a, ⟨v⟩) := by
  simp [Stack.pop, List.getLast?_concat, List.dropLast_concat]

lemma Stack.popN_concat (l v : List α) :
    Stack.popN l.length ⟨v ++ l⟩ = (l.reverse.map some, ⟨v⟩) := by
  induction l using List.reverseRecOn with
  | nil => simp [Stack.popN]
  | append_singleton t a ih =>
    rw [show v ++ (t ++ [a]) = (v ++ t) ++ [a] from (List.append_assoc v t [a]).symm]
    simp only [List.length_append, List.length_singleton, List.reverse_append,
      List.reverse_cons, List.reverse_nil, List.nil_append, List.singleton_append,
      List.map_cons]
    show Stack.popN (t.length + 1) ⟨(v ++ t) ++ [a]⟩ = (some a :: t.reverse.map some, ⟨v⟩)
    simp only [Stack.popN, Stack.pop_concat, ih]

/-- Claim C10: for every stack s and value v, push(v) then pop() returns
Some(v) and restores the stack to its state before the push. -/
theorem stack_push_pop_roundtrip (s : Stack α) (v : α) :
    (s.push v).pop = (some v, s) := by
  have h := Stack.pop_concat s.vec v
  simpa [Stack.push] using h

/-- Claim C3: on a freshly constructed stack, pop, top and top_mut all
return the absent value `none` of an `Option` result, not an error. -/
theorem stack_empty_semantics :
    (Stack.new : Stack α).pop = (none, Stack.new) ∧
    (Stack.new : Stack α).top = none ∧
    (Stack.new : Stack α).top_mut = none := by
  refine ⟨?_, rfl, rfl⟩
  simp [Stack.new, Stack.pop]

/-- Claim C1: pushing v1, ..., vn in order onto any stack and then
performing n pops returns Some(vn), ..., Some(v1) in that order, leaving
the stack as it was before the pushes. -/
theorem stack_lifo (s : Stack α) (l : List α) :
    Stack.popN l.length (s.pushAll l) = (l.reverse.map some, s) := by
  have hv : s.pushAll l = ⟨s.vec ++ l⟩ := by
    cases s with
    | mk w => exact congrArg Stack.mk (Stack.pushAll_vec ⟨w⟩ l)
  rw [hv, Stack.popN_concat]

lemma Stack.popN_len (j : Nat) (w : List α) (h : j ≤ w.length) :
    ((Stack.popN j ⟨w⟩).2).len = w.length - j := by
  induction j generalizing w with
  | zero => simp [Stack.popN, Stack.len]
  | succ n ih =>
    rcases List.eq_nil_or_concat w with rfl | ⟨u, a, rfl⟩
    · exact absurd h (by simp)
    · have hn : n ≤ u.length := by
        simpa using Nat.le_of_succ_le_succ (by simpa using h)
      simp only [List.concat_eq_append, Stack.popN, Stack.pop_concat]
      rw [ih u hn]
      simp [Nat.succ_sub_succ]

/-- Claim C2: starting from a freshly constructed stack, after k pushes
followed by j pops with j less than or equal to k, len() returns k - j. -/
theorem stack_len_invariant (l : List α) (j : Nat) (h : j ≤ l.length) :
    ((Stack.popN j (Stack.new.pushAll l)).2).len = l.length - j := by
  have hv : (Stack.new : Stack α).pushAll l = ⟨l⟩ := by
    have := Stack.pushAll_vec (Stack.new : Stack α) l
    exact congrArg Stack.mk (by simpa [Stack.new] using this)
  rw [hv, Stack.popN_len j l h]

/-- Witness for C2 at the concrete input l = [10, 20, 30], j = 2. -/
theorem stack_len_invariant_witness :
    2 ≤ ([10, 20, 30] : List Nat).length ∧
      ((Stack.popN 2 (Stack.new.pushAll [10, 20, 30])).2).len = 3 - 2 :=
  ⟨by decide, stack_len_invariant [10, 20, 30] 2 (by decide)⟩

/-- Claim C4: both extend implementations push each produced element in
production order via repeated push, so the first element produced ends up
deepest among the new elements and the last on top; in particular
extend [a, b, c] followed by three pops yields c, b, a and restores the
original stack. -/
theorem stack_extend_order (s : Stack α) (l : List α) (a b c : α) :
    s.extend l = s.pushAll l ∧
    s.extendCopy l = s.extend l ∧
    Stack.popN l.length (s.extend l) = (l.reverse.map some, s) ∧
    Stack.popN 3 (s.extend [a, b, c]) = ([some c, some b, some a], s) := by
  refine ⟨rfl, rfl, ?_, ?_⟩
  · show Stack.popN l.length (s.pushAll l) = (l.reverse.map some, s)
    exact stack_lifo s l
  · show Stack.popN 3 (s.pushAll [a, b, c]) = ([some c, some b, some a], s)
    simpa using stack_lifo s [a, b, c]

/-- Claim C5: the read-only slice view obtained by dereferencing lists the
currently-present elements front-to-back in push order: a fresh stack after
pushing l in order reads back exactly l, each push appends at the back of
the view, and after push(1), push(2), push(3) the view is [1, 2, 3] with
pop() returning 3. -/
theorem stack_view_consistency (l : List α) :
    (Stack.new.pushAll l).derefSlice = l ∧
    (∀ (s : Stack α) (v : α), (s.push v).derefSlice = s.derefSlice ++ [v]) ∧
    ((((Stack.new : Stack Nat).push 1).push 2).push 3).derefSlice = [1, 2, 3] ∧
    ((((Stack.new : Stack Nat).push 1).push 2).push 3).pop.1 = some 3 := by
  refine ⟨?_, fun s v => rfl, by decide, by decide⟩
  show (Stack.new.pushAll l).vec = l
  simpa [Stack.new] using Stack.pushAll_vec (Stack.new : Stack α) l

lemma Stack.topN_id (n : Nat) (s : Stack α) : Stack.topN n s = s := by
  induction n with
  | zero => rfl
  | succ m ih => exact ih

/-- Claim C6: calling top() any number of times leaves the stack unchanged,
so its length, contents and subsequent pop() results are unaffected; and
mutating the top element in place through top_mut() preserves the length
and keeps every element in its position, only the top value changing. -/
theorem stack_top_frame (s : Stack α) (f : α → α) (n : Nat) :
    Stack.topN n s = s ∧
    (Stack.topN n s).len = s.len ∧
    (Stack.topN n s).pop = s.pop ∧
    (s.modifyTop f).len = s.len ∧
    (s.modifyTop f).vec = s.vec.dropLast ++ (s.top.map f).toList := by
  refine ⟨Stack.topN_id n s, by rw [Stack.topN_id], by rw [Stack.topN_id], ?_, ?_⟩
  all_goals
    rcases List.eq_nil_or_concat s.vec with h | ⟨u, a, h⟩ <;>
      cases s <;>
      simp_all [Stack.modifyTop, Stack.len, Stack.top,
        List.getLast?_concat, List.dropLast_concat]

/-- Claim C7: clear() on an empty stack is a no-op; after any sequence of
pushes, clear() leaves len() equal to 0 and the next pop() returning the
absent value; and clearing twice equals clearing once. -/
theorem stack_clear_idempotent (s : Stack α) (l : List α) :
    (s.vec = [] → s.clear = s) ∧
    ((s.pushAll l).clear).len = 0 ∧
    ((s.pushAll l).clear).pop = (none, (s.pushAll l).clear) ∧
    (s.clear).clear = s.clear := by
  refine ⟨?_, rfl, rfl, rfl⟩
  intro h
  cases s with
  | mk w => simpa [Stack.clear] using h.symm

/-- Witness for C7 at the concrete empty stack over Nat with pushes
[4, 5]. -/
theorem stack_clear_idempotent_witness :
    (Stack.new : Stack Nat).clear = Stack.new ∧
    ((Stack.new.pushAll [4, 5]).clear).len = 0 ∧
    ((Stack.new.pushAll [4, 5]).clear).pop = (none, (Stack.new.pushAll [4, 5]).clear) ∧
    ((Stack.new : Stack Nat).clear).clear = Stack.new.clear := by
  have h := stack_clear_idempotent (Stack.new : Stack Nat) [4, 5]
  exact ⟨h.1 rfl, h.2.1, h.2.2.1, h.2.2.2⟩

/-- Claim C8: two stacks compare equal exactly when their element
sequences are equal elementwise in order; in particular stacks built by
pushing the same sequence compare equal and stacks built from different
sequences compare unequal. -/
theorem stack_eq_iff (s t : Stack α) (l m : List α) :
    (s = t ↔ s.vec = t.vec) ∧
    (Stack.new.pushAll l = Stack.new.pushAll m ↔ l = m) := by
  constructor
  · constructor
    · intro h; rw [h]
    · intro h; cases s; cases t; simpa using h
  · constructor
    · intro h
      have := congrArg Stack.vec h
      simpa [Stack.pushAll_vec, Stack.new] using this
    · intro h; rw [h]
